import Mathlib

/-!
Shallow embedding of the crypto_trading_bot backtesting core:
`src/backtesting/backtester.py` (class `Backtester`: `__init__`, `run`, `stats`),
`src/backtesting/metrics.py` (`calculate_metrics`, Sharpe part) and
`src/backtesting/utils.py` (`resample_ohlcv`, `_to_pandas_freq`, `ensure_ohlcv`).

Python floats are modelled by ℚ (ℝ where a square root occurs); pandas Series
are modelled by lists of (index label, value) pairs; a raised exception is an
`Except.error`.  Timestamps are ℕ (minutes).
-/

namespace CryptoBot

/-- One entry of `Backtester.trades` (the dict appended in `Backtester.run`).
Dates are the index labels of `self.close`. -/
structure Trade where
  entry_date : ℕ
  exit_date : ℕ
  entry_price : ℚ
  exit_price : ℚ
  ret : ℚ
deriving DecidableEq

/-- The mutable loop state of `Backtester.run`: `cash`, `position`/`entry_price`/
`entry_date` (merged into `pos`: `none` = FLAT, `some (entry_price, entry_date)` =
LONG), and the trades appended so far during this call. -/
structure Core where
  cash : ℚ
  pos : Option (ℚ × ℕ)
  trades : List Trade
deriving DecidableEq

/-- One iteration of the loop body of `Backtester.run` (backtester.py lines 29-53),
minus the equity append: exit check first, then (elif) entry check. -/
def stepCore (fee slippage : ℚ) (date : ℕ) (price : ℚ)
    (entrySig exitSig : Bool) (s : Core) : Core :=
  match s.pos with
  | some (entry_price, entry_date) =>
    if exitSig then
      let pnl := (price - entry_price) / entry_price
      let fee_cost := fee + slippage
      let pnl_after_fee := (1 + pnl) * (1 - fee_cost) - 1
      { cash := s.cash * (1 + pnl_after_fee)
        pos := none
        trades := s.trades ++ [⟨entry_date, date, entry_price, price, pnl_after_fee⟩] }
    else s
  | none =>
    if entrySig then { s with pos := some (price, date) } else s

/-- The equity value appended at the end of each loop iteration
(backtester.py line 54): `cash` if FLAT, `cash * (price / entry_price)` if LONG. -/
def barEquity (price : ℚ) (s : Core) : ℚ :=
  match s.pos with
  | none => s.cash
  | some (entry_price, _) => s.cash * (price / entry_price)

/-- The loop of `Backtester.run`: one pass over the close series, reading the
signal series positionally (`.iloc[i]`; their own index labels are never read).
A close bar with no matching signal position is Python's `IndexError`. -/
def runBars (fee slippage : ℚ) :
    List (ℕ × ℚ) → List (ℕ × Bool) → List (ℕ × Bool) → Core →
    Except String (Core × List ℚ)
  | [], _, _, s => .ok (s, [])
  | (date, price) :: cl, (_, entrySig) :: ens, (_, exitSig) :: exs, s =>
    let s1 := stepCore fee slippage date price entrySig exitSig s
    match runBars fee slippage cl ens exs s1 with
    | .ok (sf, eq) => .ok (sf, barEquity price s1 :: eq)
    | .error e => .error e
  | _ :: _, _, _, _ => .error "IndexError"

/-- The `Backtester` object.  `close`, `entries`, `exits` are label/value pairs
(pandas Series); `equity` is `none` until `run` has been called; `trades` is the
instance-level list initialised to `[]` in `__init__` and appended to by `run`. -/
structure Backtester where
  close : List (ℕ × ℚ)
  entries : List (ℕ × Bool)
  exits : List (ℕ × Bool)
  fee : ℚ
  slippage : ℚ
  init_cash : ℚ
  equity : Option (List ℚ)
  trades : List Trade
deriving DecidableEq

/-- `Backtester.__init__`: signals have missing values coerced to `False`
(`fillna(False)`), `equity = None`, `trades = []`. -/
def mkBacktester (close : List (ℕ × ℚ)) (entries exits : List (ℕ × Option Bool))
    (fee slippage init_cash : ℚ) : Backtester :=
  { close := close
    entries := entries.map (fun de => (de.1, de.2.getD false))
    exits := exits.map (fun de => (de.1, de.2.getD false))
    fee := fee, slippage := slippage, init_cash := init_cash
    equity := none, trades := [] }

/-- `Backtester.run` (backtester.py lines 18-57): run the loop from
`cash = init_cash`, FLAT, and store the equity curve; trades accumulate onto the
instance's existing `trades` list.  Returns `self`. -/
def Backtester.run (bt : Backtester) : Except String Backtester :=
  match runBars bt.fee bt.slippage bt.close bt.entries bt.exits
      ⟨bt.init_cash, none, []⟩ with
  | .error e => .error e
  | .ok (s, eq) => .ok { bt with equity := some eq, trades := bt.trades ++ s.trades }

/-- Reference fold for proofs: the run restricted to its Core state, over a list
of fully zipped rows `((date, price), entrySig, exitSig)`. -/
def runCoreB (fee slippage : ℚ) : List ((ℕ × ℚ) × Bool × Bool) → Core → Core
  | [], s => s
  | ((d, p), en, ex) :: rest, s => runCoreB fee slippage rest (stepCore fee slippage d p en ex s)

/-- Reference fold for proofs: the equity curve produced by the run over zipped rows. -/
def equityB (fee slippage : ℚ) : List ((ℕ × ℚ) × Bool × Bool) → Core → List ℚ
  | [], _ => []
  | ((d, p), en, ex) :: rest, s =>
    let s1 := stepCore fee slippage d p en ex s
    barEquity p s1 :: equityB fee slippage rest s1

/-- Zip the close series with the positional values of the signal series. -/
def mkRows (cl : List (ℕ × ℚ)) (ens exs : List (ℕ × Bool)) :
    List ((ℕ × ℚ) × Bool × Bool) :=
  cl.zip ((ens.map Prod.snd).zip (exs.map Prod.snd))

/-- `total_return` of `Backtester.stats` (line 63): `equity.iloc[-1] / init_cash - 1`
(`none` when the curve is empty, where Python would raise). -/
def total_return (init_cash : ℚ) (eq : List ℚ) : Option ℚ :=
  eq.getLast?.map (fun x => x / init_cash - 1)

/-- Convenience composition: run a fresh `Backtester` and report `total_return`
exactly as `stats` computes it. -/
def totalReturnOf (bt : Backtester) : Option ℚ :=
  match bt.run with
  | .ok b =>
    match b.equity with
    | some e => total_return bt.init_cash e
    | none => none
  | .error _ => none

/-- Repeated calls of `run` on the same instance, propagating the returned `self`. -/
def runK : ℕ → Backtester → Except String Backtester
  | 0, bt => .ok bt
  | k + 1, bt => (runK k bt).bind Backtester.run

/-- The index labels of a zipped row list (the timestamps of the close series). -/
def labelsOf (rows : List ((ℕ × ℚ) × Bool × Bool)) : List ℕ :=
  rows.map (fun r => r.1.1)

/-- Concrete instance for the C2 witness: entry fires only at the second bar. -/
def btC2 : Backtester :=
  { close := [(0, 100), (1, 110), (2, 121)]
    entries := [(0, false), (1, true), (2, false)]
    exits := [(0, false), (1, false), (2, false)]
    fee := 1/1000, slippage := 0, init_cash := 10000
    equity := none, trades := [] }

/-- Concrete instance for the C4 witness: an entry with no subsequent exit. -/
def btC4 : Backtester :=
  { close := [(0, 100), (1, 110)]
    entries := [(0, true), (1, false)]
    exits := [(0, false), (1, false)]
    fee := 0, slippage := 0, init_cash := 1000
    equity := none, trades := [] }

/-- `sum([t["return"] for t in self.trades if t["return"] > 0])` in `stats`. -/
def positiveSum (trades : List Trade) : ℚ :=
  ((trades.filter fun t => decide (0 < t.ret)).map Trade.ret).sum

/-- `sum([t["return"] for t in self.trades if t["return"] < 0])` in `stats`. -/
def negativeSum (trades : List Trade) : ℚ :=
  ((trades.filter fun t => decide (t.ret < 0)).map Trade.ret).sum

/-- `profit_factor` of `Backtester.stats` (lines 68-71):
`sum(pos) / abs(sum(neg) or 1)` if there are trades, else `0`.  Python's
`x or 1` yields `1` exactly when `x == 0`. -/
def profit_factor (trades : List Trade) : ℚ :=
  if trades.isEmpty then 0
  else positiveSum trades / |if negativeSum trades = 0 then 1 else negativeSum trades|

/-- Concrete instance for the C10 witness: one full round trip. -/
def btC10 : Backtester :=
  { close := [(0, 100), (1, 110)]
    entries := [(0, true), (1, false)]
    exits := [(0, false), (1, true)]
    fee := 0, slippage := 0, init_cash := 1000
    equity := none, trades := [] }

/-- Concrete instance violating every stated precondition of C8: the signal
index labels disagree with the close index, `init_cash` is not positive, and
`fee` and `slippage` are negative. -/
def btC8 : Backtester :=
  { close := [(0, 100), (1, 90)]
    entries := [(100, true), (101, false)]
    exits := [(100, false), (101, true)]
    fee := -(1/10), slippage := -(1/100), init_cash := 0
    equity := none, trades := [] }

/-- C5 counterexample, lower fee: two flat round trips with `fee + slippage > 1`. -/
def btC5lo : Backtester :=
  { close := [(0, 100), (1, 100), (2, 100), (3, 100)]
    entries := [(0, true), (1, false), (2, true), (3, false)]
    exits := [(0, false), (1, true), (2, false), (3, true)]
    fee := 3/5, slippage := 3/5, init_cash := 10000
    equity := none, trades := [] }

/-- C5 counterexample, higher fee: same inputs as `btC5lo` with `fee` raised. -/
def btC5hi : Backtester :=
  { close := [(0, 100), (1, 100), (2, 100), (3, 100)]
    entries := [(0, true), (1, false), (2, true), (3, false)]
    exits := [(0, false), (1, true), (2, false), (3, true)]
    fee := 7/10, slippage := 3/5, init_cash := 10000
    equity := none, trades := [] }

/-- Concrete instance for the C5 amended-claim witness. -/
def btC5W : Backtester :=
  { close := [(0, 100), (1, 110)]
    entries := [(0, true), (1, false)]
    exits := [(0, false), (1, true)]
    fee := 1/1000, slippage := 0, init_cash := 1000
    equity := none, trades := [] }

/-- `equity.pct_change().fillna(0)` in `Backtester.stats` (line 64): the first
value (pandas `NaN`) is replaced by `0`; every later value is
`equity[i] / equity[i-1] - 1`. -/
def pctChange (eq : List ℚ) : List ℚ :=
  match eq with
  | [] => []
  | _ :: rest => 0 :: (eq.zip rest).map (fun pc => pc.2 / pc.1 - 1)

/-- Mean of a list of values (pandas `Series.mean`). -/
def meanQ (xs : List ℚ) : ℚ := xs.sum / xs.length

/-- Sample variance with `ddof = 1`, the square of pandas `Series.std`.  Pandas
yields `NaN` for fewer than two values; this total version returns junk (`0`)
there and is only consulted away from that case (see `sharpe_metrics`). -/
def varSample (xs : List ℚ) : ℚ :=
  ((xs.map (fun x => (x - meanQ xs) ^ 2)).sum) / ((xs.length : ℚ) - 1)

/-- Sharpe ratio of `Backtester.stats` (line 65):
`returns.mean() / (returns.std() + 1e-9) * np.sqrt(252 * 24 * 12)` over
`returns = equity.pct_change().fillna(0)` — note the `1e-9` added to the
standard deviation in place of any zero-variance special case. -/
noncomputable def sharpe_stats (eq : List ℚ) : ℝ :=
  let r := pctChange eq
  (meanQ r : ℝ) / (Real.sqrt (varSample r) + 1 / 1000000000) *
    Real.sqrt (252 * 24 * 12)

/-- The Sharpe formula exactly as the claim states it:
`mean(returns) / std(returns) * sqrt(bars_per_year)` (for comparison with
`sharpe_stats`; stated from the spec's words). -/
noncomputable def sharpeSpecFormula (bars_per_year : ℕ) (returns : List ℚ) : ℝ :=
  (meanQ returns : ℝ) / Real.sqrt (varSample returns) *
    Real.sqrt (bars_per_year : ℝ)

/-- Sharpe ratio of `calculate_metrics` (metrics.py lines 17-26):
`returns = df["strategy_returns"].dropna()`; the code computes
`mean/std * sqrt(365*24*60)` when `std_return > 0` and `0` otherwise.  With
fewer than two returns pandas `std` is `NaN` and `NaN > 0` is false, hence the
length guard; for the defined case `std > 0` iff the sample variance is
positive. -/
noncomputable def sharpe_metrics (strategy_returns : List (Option ℚ)) : ℝ :=
  let r := strategy_returns.filterMap id
  if r.length ≤ 1 then 0
  else if 0 < varSample r then
    (meanQ r : ℝ) / Real.sqrt (varSample r) * Real.sqrt (365 * 24 * 60)
  else 0

/-- One OHLCV bar (a row of the resampler's DataFrame): timestamp in minutes,
`op`/`hi`/`lo`/`cl`/`vol` standing for the `open`/`high`/`low`/`close`/`volume`
columns. -/
structure Bar where
  t : ℕ
  op : ℚ
  hi : ℚ
  lo : ℚ
  cl : ℚ
  vol : ℚ
deriving DecidableEq

/-- `ensure_ohlcv`'s `df.sort_index()` (utils.py line 13): sort bars by
timestamp (stably). -/
def sortBars (bars : List Bar) : List Bar :=
  bars.insertionSort (fun a b => a.t ≤ b.t)

/-- The right edge of the right-closed window of width `w` containing minute
`t`: the least multiple of `w` that is `≥ t`.  This is the pandas
`resample(freq, label="right", closed="right")` bin label (with epoch-aligned
bin origin). -/
def windowLabel (w t : ℕ) : ℕ := w * ((t + w - 1) / w)

/-- `foldl max`, used for the `high` aggregate. -/
def foldMax (a : ℚ) (l : List ℚ) : ℚ := l.foldl max a

/-- `foldl min`, used for the `low` aggregate. -/
def foldMin (a : ℚ) (l : List ℚ) : ℚ := l.foldl min a

/-- Aggregate one resample window labelled `T` over its (time-ordered)
contributing bars: `open = first`, `high = max`, `low = min`, `close = last`,
`volume = sum`; an empty window produces no row (pandas emits an all-`NaN` row
that `dropna(how="any")` removes). -/
def aggWindow (T : ℕ) (g : List Bar) : Option Bar :=
  match g with
  | [] => none
  | b :: rest =>
    some { t := T
           op := b.op
           hi := foldMax b.hi (rest.map Bar.hi)
           lo := foldMin b.lo (rest.map Bar.lo)
           cl := (rest.getLastD b).cl
           vol := b.vol + (rest.map Bar.vol).sum }

/-- The grouped aggregation of `df.resample(freq, label="right",
closed="right").agg(...)` followed by `dropna(how="any")`, over an
already-sorted bar list: one output row per occurring window label. -/
def resampleCore (w : ℕ) (s : List Bar) : List Bar :=
  ((s.map (fun b => windowLabel w b.t)).dedup).filterMap
    (fun T => aggWindow T (s.filter (fun b => decide (windowLabel w b.t = T))))

/-- The unit letter of `_to_pandas_freq` (utils.py lines 15-26), in minutes. -/
def unitMinutes : Char → Option ℕ
  | 'm' => some 1
  | 'h' => some 60
  | 'd' => some 1440
  | 'w' => some 10080
  | _ => none

/-- Value of one ASCII digit, `none` for a non-digit. -/
def digitVal (c : Char) : Option ℕ :=
  if '0' ≤ c ∧ c ≤ '9' then some (c.toNat - '0'.toNat) else none

/-- Decimal value of a nonempty all-digit character list, `none` otherwise
(the `\d+` group of the regex). -/
def digitsToNat : List Char → Option ℕ
  | [] => none
  | cs => cs.foldl (fun acc c =>
      match acc, digitVal c with
      | some n, some d => some (10 * n + d)
      | _, _ => none) (some 0)

/-- The timeframe width in minutes parsed from a short code, mirroring the
regex `(\d+)([mhdw])` of `_to_pandas_freq` (utils.py line 21): one or more
digits followed by a single unit letter (codes assumed already stripped and
lower-cased). -/
def tfMinutes (tf : String) : Option ℕ :=
  match tf.data.dropLast, tf.data.getLast? with
  | _, none => none
  | [], _ => none
  | ds, some u =>
    match digitsToNat ds, unitMinutes u with
    | some n, some m => some (n * m)
    | _, _ => none

/-- `resample_ohlcv` (utils.py lines 28-45): sort; return the sorted copy
unchanged for the native `1m` codes; otherwise resample into right-closed,
right-labelled windows and drop empty windows.  An unparseable timeframe is
`none` (pandas would raise on an invalid frequency). -/
def resample_ohlcv (tf : String) (bars : List Bar) : Option (List Bar) :=
  let s := sortBars bars
  if tf = "1m" ∨ tf = "1T" ∨ tf = "1min" then some s
  else
    match tfMinutes tf with
    | some w => some (resampleCore w s)
    | none => none

/-- The bars of the sorted series falling in the right-closed window `(T - w, T]`
— written without natural subtraction: `t ≤ T < t + w`.  This is the claim's
description of a window's contributing source bars. -/
def windowBars (w T : ℕ) (s : List Bar) : List Bar :=
  s.filter (fun b => decide (b.t ≤ T) && decide (T < b.t + w))

/-- What C9 claims of a resampled output `out` for width `w` over `bars`:
every output row is labelled by a multiple of `w`, aggregates a nonempty window
of source bars from `(B.t - w, B.t]` (open = first, high = max, low = min,
close = last, volume = sum), and every source bar contributes to some output
row (only empty windows are dropped). -/
def ResampleSpec (w : ℕ) (bars : List Bar) (out : List Bar) : Prop :=
  (∀ B ∈ out,
    windowBars w B.t (sortBars bars) ≠ [] ∧
    w ∣ B.t ∧
    (windowBars w B.t (sortBars bars)).head?.map Bar.op = some B.op ∧
    (windowBars w B.t (sortBars bars)).getLast?.map Bar.cl = some B.cl ∧
    (∀ b ∈ windowBars w B.t (sortBars bars), b.hi ≤ B.hi) ∧
    B.hi ∈ (windowBars w B.t (sortBars bars)).map Bar.hi ∧
    (∀ b ∈ windowBars w B.t (sortBars bars), B.lo ≤ b.lo) ∧
    B.lo ∈ (windowBars w B.t (sortBars bars)).map Bar.lo ∧
    B.vol = ((windowBars w B.t (sortBars bars)).map Bar.vol).sum) ∧
  (∀ b ∈ sortBars bars, ∃ B ∈ out, b.t ≤ B.t ∧ B.t < b.t + w)

/-- Five one-minute bars with closes 1..5 (the spec's own resampling example),
for the C9 witness. -/
def demoC9 : List Bar :=
  [⟨1, 1, 1, 1, 1, 10⟩, ⟨2, 2, 2, 2, 2, 10⟩, ⟨3, 3, 3, 3, 3, 10⟩,
   ⟨4, 4, 4, 4, 4, 10⟩, ⟨5, 5, 5, 5, 5, 10⟩]

end CryptoBot

namespace CryptoBot

/- ------------------------------------------------------------------ -/
/- Helper lemmas                                                       -/
/- ------------------------------------------------------------------ -/

theorem runBars_eq_ok (fee slippage : ℚ) :
    ∀ (cl : List (ℕ × ℚ)) (ens exs : List (ℕ × Bool)) (s : Core),
      cl.length ≤ ens.length → cl.length ≤ exs.length →
      runBars fee slippage cl ens exs s =
        .ok (runCoreB fee slippage (mkRows cl ens exs) s,
             equityB fee slippage (mkRows cl ens exs) s)
  | [], _, _, s, _, _ => by simp [runBars, mkRows, runCoreB, equityB]
  | (d, p) :: cl, [], _, s, h1, _ => by simp at h1
  | (d, p) :: cl, _ :: _, [], s, _, h2 => by simp at h2
  | (d, p) :: cl, (de, en) :: ens, (dx, ex) :: exs, s, h1, h2 => by
    have ih := runBars_eq_ok fee slippage cl ens exs
      (stepCore fee slippage d p en ex s)
      (by simpa using Nat.le_of_succ_le_succ h1)
      (by simpa using Nat.le_of_succ_le_succ h2)
    simp only [runBars, mkRows, List.map_cons, List.zip_cons_cons, ih]
    simp [mkRows, runCoreB, equityB]

theorem mkRows_length (cl : List (ℕ × ℚ)) (ens exs : List (ℕ × Bool))
    (h1 : cl.length ≤ ens.length) (h2 : cl.length ≤ exs.length) :
    (mkRows cl ens exs).length = cl.length := by
  simp only [mkRows, List.length_zip, List.length_map]
  omega

theorem mkRows_getElem? :
    ∀ (cl : List (ℕ × ℚ)) (ens exs : List (ℕ × Bool)) (i : ℕ)
      (c : ℕ × ℚ) (e x : ℕ × Bool),
      cl[i]? = some c → ens[i]? = some e → exs[i]? = some x →
      (mkRows cl ens exs)[i]? = some (c, e.2, x.2)
  | [], _, _, i, c, e, x, hc, _, _ => by simp at hc
  | _ :: _, [], _, i, c, e, x, _, he, _ => by simp at he
  | _ :: _, _ :: _, [], i, c, e, x, _, _, hx => by simp at hx
  | c0 :: cl, e0 :: ens, x0 :: exs, 0, c, e, x, hc, he, hx => by
    simp only [List.getElem?_cons_zero, Option.some.injEq] at hc he hx
    subst hc; subst he; subst hx
    simp [mkRows]
  | c0 :: cl, e0 :: ens, x0 :: exs, i + 1, c, e, x, hc, he, hx => by
    simp only [List.getElem?_cons_succ] at hc he hx
    have ih := mkRows_getElem? cl ens exs i c e x hc he hx
    simpa [mkRows] using ih

theorem mkRows_fst_mem {cl : List (ℕ × ℚ)} {ens exs : List (ℕ × Bool)}
    {r : (ℕ × ℚ) × Bool × Bool} (h : r ∈ mkRows cl ens exs) : r.1 ∈ cl := by
  rcases r with ⟨c, sv⟩
  exact (List.of_mem_zip h).1

theorem equityB_length (fee slippage : ℚ) :
    ∀ (rows : List ((ℕ × ℚ) × Bool × Bool)) (s : Core),
      (equityB fee slippage rows s).length = rows.length
  | [], _ => rfl
  | ((d, p), en, ex) :: rest, s => by
    simp [equityB, equityB_length fee slippage rest]

theorem equityB_getElem? (fee slippage : ℚ) :
    ∀ (rows : List ((ℕ × ℚ) × Bool × Bool)) (s : Core) (i : ℕ)
      (r : (ℕ × ℚ) × Bool × Bool), rows[i]? = some r →
      (equityB fee slippage rows s)[i]? =
        some (barEquity r.1.2 (runCoreB fee slippage (rows.take (i + 1)) s))
  | [], _, i, r, hr => by simp at hr
  | ((d, p), en, ex) :: rest, s, 0, r, hr => by
    simp only [List.getElem?_cons_zero, Option.some.injEq] at hr
    subst hr
    simp [equityB, runCoreB]
  | ((d, p), en, ex) :: rest, s, i + 1, r, hr => by
    simp only [List.getElem?_cons_succ] at hr
    have ih := equityB_getElem? fee slippage rest
      (stepCore fee slippage d p en ex s) i r hr
    simpa [equityB, runCoreB] using ih

theorem equityB_getLast? (fee slippage : ℚ) :
    ∀ (rows : List ((ℕ × ℚ) × Bool × Bool)) (s : Core)
      (r : (ℕ × ℚ) × Bool × Bool), rows.getLast? = some r →
      (equityB fee slippage rows s).getLast? =
        some (barEquity r.1.2 (runCoreB fee slippage rows s))
  | [], _, r, hr => by simp at hr
  | [((d, p), en, ex)], s, r, hr => by
    simp only [List.getLast?_singleton, Option.some.injEq] at hr
    subst hr
    simp [equityB, runCoreB, List.getLast?]
  | ((d, p), en, ex) :: q :: rest, s, r, hr => by
    rw [List.getLast?_cons_cons] at hr
    have ih := equityB_getLast? fee slippage (q :: rest)
      (stepCore fee slippage d p en ex s) r hr
    rcases q with ⟨⟨dq, pq⟩, enq, exq⟩
    simp only [equityB, runCoreB]
    rw [List.getLast?_cons_cons]
    simpa [equityB, runCoreB] using ih

theorem runCoreB_flat_of_no_entry (fee slippage : ℚ) :
    ∀ (rows : List ((ℕ × ℚ) × Bool × Bool)) (cash : ℚ) (tr : List Trade),
      (∀ r ∈ rows, r.2.1 = false) →
      runCoreB fee slippage rows ⟨cash, none, tr⟩ = ⟨cash, none, tr⟩
  | [], _, _, _ => rfl
  | ((d, p), en, ex) :: rest, cash, tr, h => by
    have hen : en = false := h ((d, p), en, ex) (by simp)
    subst hen
    have ih := runCoreB_flat_of_no_entry fee slippage rest cash tr
      (fun r hr => h r (by simp [hr]))
    simpa [runCoreB, stepCore] using ih

end CryptoBot

namespace CryptoBot

/- ------------------------------------------------------------------ -/
/- Claim theorems                                                      -/
/- ------------------------------------------------------------------ -/

/-- C1: at each bar the exit check runs before the entry check: when the state is
LONG and the exit and entry signals are both true on the same bar, the bar is
resolved as an exit (the trade record is appended and the state becomes FLAT),
and no re-entry happens on that bar. -/
theorem c1_exit_before_entry (fee slippage : ℚ) (d : ℕ) (p ep : ℚ) (ed : ℕ)
    (s : Core) (hpos : s.pos = some (ep, ed))
    (rest : List ((ℕ × ℚ) × Bool × Bool)) :
    (stepCore fee slippage d p true true s).pos = none ∧
    (stepCore fee slippage d p true true s).trades =
      s.trades ++ [⟨ed, d, ep, p, (1 + (p - ep) / ep) * (1 - (fee + slippage)) - 1⟩] ∧
    runCoreB fee slippage (((d, p), true, true) :: rest) s =
      runCoreB fee slippage rest
        { cash := s.cash * (1 + ((1 + (p - ep) / ep) * (1 - (fee + slippage)) - 1))
          pos := none
          trades := s.trades ++
            [⟨ed, d, ep, p, (1 + (p - ep) / ep) * (1 - (fee + slippage)) - 1⟩] } := by
  refine ⟨?_, ?_, ?_⟩ <;> simp [stepCore, hpos, runCoreB]

/-- Witness for C1 at a concrete LONG state with both signals true on the bar. -/
theorem c1_exit_before_entry_witness :
    (stepCore 0 0 7 110 true true ⟨1000, some (100, 3), []⟩).pos = none ∧
    (stepCore 0 0 7 110 true true ⟨1000, some (100, 3), []⟩).trades =
      [] ++ [⟨3, 7, 100, 110, (1 + (110 - 100) / 100) * (1 - (0 + 0)) - 1⟩] ∧
    runCoreB 0 0 [((7, 110), true, true)] ⟨1000, some (100, 3), []⟩ =
      runCoreB 0 0 []
        { cash := 1000 * (1 + ((1 + (110 - 100) / 100) * (1 - (0 + 0)) - 1))
          pos := none
          trades := [] ++ [⟨3, 7, 100, 110, (1 + (110 - 100) / 100) * (1 - (0 + 0)) - 1⟩] } :=
  c1_exit_before_entry 0 0 7 110 100 3 ⟨1000, some (100, 3), []⟩ rfl []

/-- C3: closing a LONG position multiplies cash by `1 + r` where
`r = (1 + (price - entry_price)/entry_price) * (1 - (fee + slippage)) - 1` and
appends a trade record with return `r`; opening a position leaves cash and the
trade log unchanged (no fee is deducted at entry). -/
theorem c3_exit_return_entry_free (fee slippage : ℚ) (d : ℕ) (p : ℚ)
    (en ex : Bool) (s : Core) :
    (∀ ep ed, s.pos = some (ep, ed) → ex = true →
      (stepCore fee slippage d p en ex s).cash =
        s.cash * (1 + ((1 + (p - ep) / ep) * (1 - (fee + slippage)) - 1)) ∧
      (stepCore fee slippage d p en ex s).trades =
        s.trades ++ [⟨ed, d, ep, p, (1 + (p - ep) / ep) * (1 - (fee + slippage)) - 1⟩]) ∧
    (s.pos = none → en = true →
      (stepCore fee slippage d p en ex s).cash = s.cash ∧
      (stepCore fee slippage d p en ex s).trades = s.trades ∧
      (stepCore fee slippage d p en ex s).pos = some (p, d)) := by
  constructor
  · intro ep ed hpos hex
    subst hex
    constructor <;> simp [stepCore, hpos]
  · intro hpos hen
    subst hen
    refine ⟨?_, ?_, ?_⟩ <;> simp [stepCore, hpos]

/-- Witness for C3: a concrete exit bar and a concrete entry bar. -/
theorem c3_exit_return_entry_free_witness :
    ((stepCore (1/100) (1/200) 9 120 false true ⟨500, some (100, 2), []⟩).cash =
        500 * (1 + ((1 + (120 - 100) / 100) * (1 - (1/100 + 1/200)) - 1)) ∧
      (stepCore (1/100) (1/200) 9 120 false true ⟨500, some (100, 2), []⟩).trades =
        [] ++ [⟨2, 9, 100, 120, (1 + (120 - 100) / 100) * (1 - (1/100 + 1/200)) - 1⟩]) ∧
    ((stepCore (1/100) (1/200) 4 80 true false ⟨500, none, []⟩).cash = 500 ∧
      (stepCore (1/100) (1/200) 4 80 true false ⟨500, none, []⟩).trades = [] ∧
      (stepCore (1/100) (1/200) 4 80 true false ⟨500, none, []⟩).pos = some (80, 4)) :=
  ⟨(c3_exit_return_entry_free (1/100) (1/200) 9 120 false true
      ⟨500, some (100, 2), []⟩).1 100 2 rfl rfl,
   (c3_exit_return_entry_free (1/100) (1/200) 4 80 true false
      ⟨500, none, []⟩).2 rfl rfl⟩

end CryptoBot

namespace CryptoBot

theorem mkRows_labels :
    ∀ (cl : List (ℕ × ℚ)) (ens exs : List (ℕ × Bool)),
      cl.length ≤ ens.length → cl.length ≤ exs.length →
      labelsOf (mkRows cl ens exs) = cl.map Prod.fst
  | [], _, _, _, _ => by simp [mkRows, labelsOf]
  | _ :: _, [], _, h1, _ => by simp at h1
  | _ :: _, _ :: _, [], _, h2 => by simp at h2
  | (d, p) :: cl, (de, en) :: ens, (dx, ex) :: exs, h1, h2 => by
    have ih := mkRows_labels cl ens exs
      (by simpa using Nat.le_of_succ_le_succ h1)
      (by simpa using Nat.le_of_succ_le_succ h2)
    simpa [mkRows, labelsOf] using ih

theorem run_ok_of_lengths (bt : Backtester)
    (h1 : bt.close.length ≤ bt.entries.length)
    (h2 : bt.close.length ≤ bt.exits.length) :
    bt.run = .ok { bt with
      equity := some (equityB bt.fee bt.slippage
        (mkRows bt.close bt.entries bt.exits) ⟨bt.init_cash, none, []⟩)
      trades := bt.trades ++ (runCoreB bt.fee bt.slippage
        (mkRows bt.close bt.entries bt.exits) ⟨bt.init_cash, none, []⟩).trades } := by
  rw [Backtester.run,
    runBars_eq_ok bt.fee bt.slippage bt.close bt.entries bt.exits
      ⟨bt.init_cash, none, []⟩ h1 h2]

/-- C2: with aligned inputs the equity curve has exactly one value per bar of the
close series; its value at each bar is `cash` when FLAT and
`cash * (price / entry_price)` when LONG (the state reached after that bar's
signal processing); and every bar before the first entry signal carries
`init_cash`. -/
theorem c2_equity_curve (bt b' : Backtester) (eqc : List ℚ)
    (h1 : bt.close.length ≤ bt.entries.length)
    (h2 : bt.close.length ≤ bt.exits.length)
    (hrun : bt.run = .ok b') (heq : b'.equity = some eqc) :
    eqc.length = bt.close.length ∧
    (∀ i d p, bt.close[i]? = some (d, p) →
      eqc[i]? = some (barEquity p
        (runCoreB bt.fee bt.slippage
          ((mkRows bt.close bt.entries bt.exits).take (i + 1))
          ⟨bt.init_cash, none, []⟩))) ∧
    (∀ i, i < bt.close.length →
      (∀ j, j ≤ i → (bt.entries[j]?).map Prod.snd ≠ some true) →
      eqc[i]? = some bt.init_cash) := by
  rw [run_ok_of_lengths bt h1 h2] at hrun
  simp only [Except.ok.injEq] at hrun
  subst hrun
  have heqc : eqc = equityB bt.fee bt.slippage
      (mkRows bt.close bt.entries bt.exits) ⟨bt.init_cash, none, []⟩ := by
    injection heq with h
    exact h.symm
  subst heqc
  have hlen : (mkRows bt.close bt.entries bt.exits).length = bt.close.length :=
    mkRows_length bt.close bt.entries bt.exits h1 h2
  refine ⟨by rw [equityB_length, hlen], ?_, ?_⟩
  · intro i d p hc
    have hi : i < bt.close.length := by
      rcases List.getElem?_eq_some.mp hc with ⟨hlt, _⟩
      exact hlt
    have he : bt.entries[i]? = some bt.entries[i] :=
      List.getElem?_eq_getElem (lt_of_lt_of_le hi h1)
    have hx : bt.exits[i]? = some bt.exits[i] :=
      List.getElem?_eq_getElem (lt_of_lt_of_le hi h2)
    have hrow := mkRows_getElem? bt.close bt.entries bt.exits i (d, p)
      bt.entries[i] bt.exits[i] hc he hx
    exact equityB_getElem? bt.fee bt.slippage _ _ i _ hrow
  · intro i hi hnoentry
    have hc : bt.close[i]? = some bt.close[i] := List.getElem?_eq_getElem hi
    have he : bt.entries[i]? = some bt.entries[i] :=
      List.getElem?_eq_getElem (lt_of_lt_of_le hi h1)
    have hx : bt.exits[i]? = some bt.exits[i] :=
      List.getElem?_eq_getElem (lt_of_lt_of_le hi h2)
    have hrow := mkRows_getElem? bt.close bt.entries bt.exits i bt.close[i]
      bt.entries[i] bt.exits[i] hc he hx
    have hval := equityB_getElem? bt.fee bt.slippage _ ⟨bt.init_cash, none, []⟩ i _ hrow
    have hflat : runCoreB bt.fee bt.slippage
        ((mkRows bt.close bt.entries bt.exits).take (i + 1))
        ⟨bt.init_cash, none, []⟩ = ⟨bt.init_cash, none, []⟩ := by
      apply runCoreB_flat_of_no_entry
      intro r hr
      rcases List.mem_iff_getElem?.mp hr with ⟨j, hj⟩
      have hjlt : j < i + 1 := by
        have := List.getElem?_eq_some.mp hj
        rcases this with ⟨hlt, _⟩
        have : j < ((mkRows bt.close bt.entries bt.exits).take (i + 1)).length := hlt
        simp only [List.length_take] at this
        omega
      have hjrow : (mkRows bt.close bt.entries bt.exits)[j]? = some r := by
        rw [← List.getElem?_take_of_lt hjlt]
        exact hj
      have hji : j < bt.close.length := by
        have := List.getElem?_eq_some.mp hjrow
        rcases this with ⟨hlt, _⟩
        rw [hlen] at hlt
        exact hlt
      have hcj : bt.close[j]? = some bt.close[j] := List.getElem?_eq_getElem hji
      have hej : bt.entries[j]? = some bt.entries[j] :=
        List.getElem?_eq_getElem (lt_of_lt_of_le hji h1)
      have hxj : bt.exits[j]? = some bt.exits[j] :=
        List.getElem?_eq_getElem (lt_of_lt_of_le hji h2)
      have hrowj := mkRows_getElem? bt.close bt.entries bt.exits j bt.close[j]
        bt.entries[j] bt.exits[j] hcj hej hxj
      rw [hrowj] at hjrow
      injection hjrow with hr'
      have hent := hnoentry j (by omega)
      rw [hej] at hent
      simp only [Option.map_some'] at hent
      have : bt.entries[j].2 ≠ true := fun hcontra => hent (by rw [hcontra])
      rw [← hr']
      simpa using this
    rw [hval, hflat]
    simp [barEquity]

/-- Witness for C2 on `btC2`: three bars, three equity values, and the first bar
(before any entry signal) is valued at `init_cash = 10000`. -/
theorem c2_equity_curve_witness :
    ∃ b' eqc, btC2.run = .ok b' ∧ b'.equity = some eqc ∧
      eqc.length = btC2.close.length ∧ eqc[0]? = some 10000 := by
  have hrun : btC2.run = .ok { btC2 with
      equity := some (equityB btC2.fee btC2.slippage
        (mkRows btC2.close btC2.entries btC2.exits) ⟨btC2.init_cash, none, []⟩)
      trades := btC2.trades ++ (runCoreB btC2.fee btC2.slippage
        (mkRows btC2.close btC2.entries btC2.exits) ⟨btC2.init_cash, none, []⟩).trades } :=
    run_ok_of_lengths btC2 (by decide) (by decide)
  refine ⟨_, _, hrun, rfl, ?_, ?_⟩
  · exact (c2_equity_curve btC2 _ _ (by decide) (by decide) hrun rfl).1
  · have h3 := (c2_equity_curve btC2 _ _ (by decide) (by decide) hrun rfl).2.2
    have := h3 0 (by decide) (by decide)
    simpa [btC2] using this

theorem runCoreB_open_inv (fee slippage : ℚ) :
    ∀ (rows : List ((ℕ × ℚ) × Bool × Bool)) (s : Core),
      (labelsOf rows).Nodup →
      (∀ t ∈ s.trades, t.entry_date ∉ labelsOf rows) →
      (∀ ep ed, s.pos = some (ep, ed) →
        ed ∉ labelsOf rows ∧ ∀ t ∈ s.trades, t.entry_date ≠ ed) →
      ∀ ep ed, (runCoreB fee slippage rows s).pos = some (ep, ed) →
        ∀ t ∈ (runCoreB fee slippage rows s).trades, t.entry_date ≠ ed
  | [], s, _, _, hpos => by
    intro ep ed h t ht
    exact (hpos ep ed h).2 t ht
  | ((d, p), en, ex) :: rest, s, hnd, htr, hpos => by
    simp only [labelsOf, List.map_cons, List.nodup_cons] at hnd
    obtain ⟨hd, hnd'⟩ := hnd
    simp only [runCoreB]
    rcases hp : s.pos with _ | ⟨ep0, ed0⟩
    · -- FLAT
      cases en
      · -- no entry: state unchanged
        have hstep : stepCore fee slippage d p false ex s = s := by
          simp [stepCore, hp]
        rw [hstep]
        apply runCoreB_open_inv fee slippage rest s hnd'
        · intro t ht
          have := htr t ht
          simp only [labelsOf, List.map_cons, List.mem_cons] at this
          intro hmem
          exact this (Or.inr hmem)
        · intro ep1 ed1 h1
          rw [hp] at h1
          exact absurd h1 (by simp)
      · -- entry: open at (p, d)
        have hstep : stepCore fee slippage d p true ex s = { s with pos := some (p, d) } := by
          simp [stepCore, hp]
        rw [hstep]
        apply runCoreB_open_inv fee slippage rest _ hnd'
        · intro t ht
          simp only at ht
          have := htr t ht
          simp only [labelsOf, List.map_cons, List.mem_cons] at this
          intro hmem
          exact this (Or.inr hmem)
        · intro ep1 ed1 h1
          simp only [Option.some.injEq, Prod.mk.injEq] at h1
          obtain ⟨hep1, hed1⟩ := h1
          subst hed1
          refine ⟨by simpa [labelsOf] using hd, ?_⟩
          intro t ht
          simp only at ht
          have := htr t ht
          simp only [labelsOf, List.map_cons, List.mem_cons] at this
          intro hcontra
          exact this (Or.inl hcontra)
    · -- LONG
      cases ex
      · -- no exit: state unchanged
        have hstep : stepCore fee slippage d p en false s = s := by
          simp [stepCore, hp]
        rw [hstep]
        apply runCoreB_open_inv fee slippage rest s hnd'
        · intro t ht
          have := htr t ht
          simp only [labelsOf, List.map_cons, List.mem_cons] at this
          intro hmem
          exact this (Or.inr hmem)
        · intro ep1 ed1 h1
          rw [hp] at h1
          simp only [Option.some.injEq, Prod.mk.injEq] at h1
          obtain ⟨hep1, hed1⟩ := h1
          subst hed1
          have h0 := hpos ep0 ed0 hp
          refine ⟨?_, h0.2⟩
          have := h0.1
          simp only [labelsOf, List.map_cons, List.mem_cons] at this
          intro hmem
          exact this (Or.inr hmem)
      · -- exit: close the trade
        have h0 := hpos ep0 ed0 hp
        have hstep : stepCore fee slippage d p en true s =
            { cash := s.cash * (1 + ((1 + (p - ep0) / ep0) * (1 - (fee + slippage)) - 1))
              pos := none
              trades := s.trades ++
                [⟨ed0, d, ep0, p, (1 + (p - ep0) / ep0) * (1 - (fee + slippage)) - 1⟩] } := by
          simp [stepCore, hp]
        rw [hstep]
        apply runCoreB_open_inv fee slippage rest _ hnd'
        · intro t ht
          simp only [List.mem_append, List.mem_singleton] at ht
          rcases ht with ht | ht
          · have := htr t ht
            simp only [labelsOf, List.map_cons, List.mem_cons] at this
            intro hmem
            exact this (Or.inr hmem)
          · subst ht
            simp only
            have := h0.1
            simp only [labelsOf, List.map_cons, List.mem_cons] at this
            intro hmem
            exact this (Or.inr hmem)
        · intro ep1 ed1 h1
          exact absurd h1 (by simp)

/-- C4: when the state is still LONG after the last bar, the run does not
force-close: no trade record carries the open position's entry date, while the
equity curve still ends with the open position's mark-to-market value
`cash * (last price / entry_price)`. -/
theorem c4_trailing_open (bt b' : Backtester) (eqc : List ℚ) (ep : ℚ) (ed : ℕ)
    (h1 : bt.close.length ≤ bt.entries.length)
    (h2 : bt.close.length ≤ bt.exits.length)
    (hnodup : (bt.close.map Prod.fst).Nodup)
    (hfresh : bt.trades = [])
    (hrun : bt.run = .ok b') (heq : b'.equity = some eqc)
    (hopen : (runCoreB bt.fee bt.slippage (mkRows bt.close bt.entries bt.exits)
      ⟨bt.init_cash, none, []⟩).pos = some (ep, ed)) :
    (∀ t ∈ b'.trades, t.entry_date ≠ ed) ∧
    (∃ r, (mkRows bt.close bt.entries bt.exits).getLast? = some r ∧
      eqc.getLast? = some ((runCoreB bt.fee bt.slippage
        (mkRows bt.close bt.entries bt.exits) ⟨bt.init_cash, none, []⟩).cash *
          (r.1.2 / ep))) := by
  rw [run_ok_of_lengths bt h1 h2] at hrun
  simp only [Except.ok.injEq] at hrun
  subst hrun
  have heqc : eqc = equityB bt.fee bt.slippage
      (mkRows bt.close bt.entries bt.exits) ⟨bt.init_cash, none, []⟩ := by
    injection heq with h
    exact h.symm
  subst heqc
  have hlabels : labelsOf (mkRows bt.close bt.entries bt.exits) = bt.close.map Prod.fst :=
    mkRows_labels bt.close bt.entries bt.exits h1 h2
  constructor
  · intro t ht
    simp only [hfresh, List.nil_append] at ht
    exact runCoreB_open_inv bt.fee bt.slippage
      (mkRows bt.close bt.entries bt.exits) ⟨bt.init_cash, none, []⟩
      (by rw [hlabels]; exact hnodup)
      (by intro t' ht'; simp at ht')
      (by intro ep' ed' h'; exact absurd h' (by simp))
      ep ed hopen t ht
  · rcases hrows : (mkRows bt.close bt.entries bt.exits).getLast? with _ | r
    · exfalso
      have hnil : mkRows bt.close bt.entries bt.exits = [] :=
        List.getLast?_eq_none_iff.mp hrows
      rw [hnil] at hopen
      simp [runCoreB] at hopen
    · refine ⟨r, rfl, ?_⟩
      have := equityB_getLast? bt.fee bt.slippage
        (mkRows bt.close bt.entries bt.exits) ⟨bt.init_cash, none, []⟩ r hrows
      rw [this]
      simp [barEquity, hopen]

/-- Witness for C4 on `btC4`: one entry, no exit; the open position has no trade
record and the last equity value is `1000 * (110 / 100)`. -/
theorem c4_trailing_open_witness :
    ∃ b' eqc, btC4.run = .ok b' ∧ b'.equity = some eqc ∧
      (∀ t ∈ b'.trades, t.entry_date ≠ 0) ∧
      (∃ r, (mkRows btC4.close btC4.entries btC4.exits).getLast? = some r ∧
        eqc.getLast? = some ((runCoreB btC4.fee btC4.slippage
          (mkRows btC4.close btC4.entries btC4.exits) ⟨btC4.init_cash, none, []⟩).cash *
            (r.1.2 / 100))) := by
  have hrun := run_ok_of_lengths btC4 (by decide) (by decide)
  refine ⟨_, _, hrun, rfl, ?_⟩
  exact c4_trailing_open btC4 _ _ 100 0 (by decide) (by decide) (by decide) rfl
    hrun rfl (by decide)

end CryptoBot

namespace CryptoBot

/-- Auxiliary for C10: `run` reads only the input fields, so running an
instance whose `equity` and `trades` were overwritten by a previous call still
recomputes the same curve and appends the same single-pass trades. -/
theorem run_update (bt : Backtester) (eq2 : Option (List ℚ)) (tr2 : List Trade)
    (h1 : bt.close.length ≤ bt.entries.length)
    (h2 : bt.close.length ≤ bt.exits.length) :
    ({ bt with equity := eq2, trades := tr2 } : Backtester).run =
      .ok { bt with
        equity := some (equityB bt.fee bt.slippage
          (mkRows bt.close bt.entries bt.exits) ⟨bt.init_cash, none, []⟩)
        trades := tr2 ++ (runCoreB bt.fee bt.slippage
          (mkRows bt.close bt.entries bt.exits) ⟨bt.init_cash, none, []⟩).trades } :=
  run_ok_of_lengths { bt with equity := eq2, trades := tr2 } h1 h2

/-- C10: `run` never resets the instance-level trade list: after `k + 1` calls on
the same instance the trade log holds `k + 1` copies of the single-pass trade
list, while the equity curve is recomputed (identically, from `init_cash`) on
every call. -/
theorem c10_trades_accumulate (bt : Backtester)
    (h1 : bt.close.length ≤ bt.entries.length)
    (h2 : bt.close.length ≤ bt.exits.length) :
    ∀ k : ℕ, runK (k + 1) bt = .ok { bt with
      equity := some (equityB bt.fee bt.slippage
        (mkRows bt.close bt.entries bt.exits) ⟨bt.init_cash, none, []⟩)
      trades := bt.trades ++ (List.replicate (k + 1) (runCoreB bt.fee bt.slippage
        (mkRows bt.close bt.entries bt.exits) ⟨bt.init_cash, none, []⟩).trades).flatten }
  | 0 => by
    show bt.run = _
    rw [run_ok_of_lengths bt h1 h2]
    simp
  | k + 1 => by
    have ih := c10_trades_accumulate bt h1 h2 k
    show (runK (k + 1) bt).bind Backtester.run = _
    rw [ih]
    show ({ bt with
      equity := some (equityB bt.fee bt.slippage
        (mkRows bt.close bt.entries bt.exits) ⟨bt.init_cash, none, []⟩)
      trades := bt.trades ++ (List.replicate (k + 1) (runCoreB bt.fee bt.slippage
        (mkRows bt.close bt.entries bt.exits)
          ⟨bt.init_cash, none, []⟩).trades).flatten } : Backtester).run = _
    rw [run_update bt _ _ h1 h2]
    simp only [Except.ok.injEq]
    congr 1
    rw [List.replicate_succ' (k + 1)]
    simp [List.append_assoc]

/-- Witness for C10: two runs of `btC10` leave two copies of its single round
trip in the trade log and the same recomputed equity curve. -/
theorem c10_trades_accumulate_witness :
    runK 2 btC10 = .ok { btC10 with
      equity := some [1000, 1100]
      trades := [⟨0, 1, 100, 110, 1/10⟩, ⟨0, 1, 100, 110, 1/10⟩] } :=
  (c10_trades_accumulate btC10 (by decide) (by decide) 1).trans (by
    norm_num [btC10, equityB, mkRows, runCoreB, stepCore, barEquity, List.replicate])

theorem sum_neg_of_all_neg :
    ∀ (l : List ℚ), l ≠ [] → (∀ x ∈ l, x < 0) → l.sum < 0
  | [], h, _ => absurd rfl h
  | [x], _, hx => by simpa using hx x (by simp)
  | x :: y :: l, _, hx => by
    have ih := sum_neg_of_all_neg (y :: l) (by simp)
      (fun z hz => hx z (List.mem_cons_of_mem x hz))
    have hx0 : x < 0 := hx x (by simp)
    simp only [List.sum_cons] at ih ⊢
    linarith

/-- C7: the profit factor of `stats` is `0` for an empty trade log,
`sum(positive returns) / 1` when there are trades but no losing trade, and
`sum(positive returns) / |sum(negative returns)|` with a provably nonzero
denominator otherwise — never a division by zero. -/
theorem c7_profit_factor (trades : List Trade) :
    (trades = [] → profit_factor trades = 0) ∧
    (trades ≠ [] → (∀ t ∈ trades, ¬(t.ret < 0)) →
      negativeSum trades = 0 ∧ profit_factor trades = positiveSum trades / 1) ∧
    (trades ≠ [] → (∃ t ∈ trades, t.ret < 0) →
      negativeSum trades < 0 ∧
      profit_factor trades = positiveSum trades / |negativeSum trades| ∧
      |negativeSum trades| ≠ 0) := by
  refine ⟨?_, ?_, ?_⟩
  · intro h
    subst h
    simp [profit_factor]
  · intro hne hnoneg
    have hfilter : trades.filter (fun t => decide (t.ret < 0)) = [] := by
      rw [List.filter_eq_nil_iff]
      intro t ht
      simpa using hnoneg t ht
    have hzero : negativeSum trades = 0 := by
      simp [negativeSum, hfilter]
    refine ⟨hzero, ?_⟩
    rw [profit_factor, if_neg (by simpa using hne), hzero]
    norm_num
  · intro hne hex
    obtain ⟨t, ht, htneg⟩ := hex
    have hneg : negativeSum trades < 0 := by
      apply sum_neg_of_all_neg
      · intro hcontra
        have : t.ret ∈ (trades.filter fun t => decide (t.ret < 0)).map Trade.ret :=
          List.mem_map_of_mem Trade.ret
            (List.mem_filter.mpr ⟨ht, by simpa using htneg⟩)
        rw [hcontra] at this
        simp at this
      · intro x hx
        rcases List.mem_map.mp hx with ⟨u, hu, hux⟩
        have := (List.mem_filter.mp hu).2
        rw [← hux]
        simpa using this
    refine ⟨hneg, ?_, ?_⟩
    · rw [profit_factor, if_neg (by simpa using hne), if_neg (ne_of_lt hneg)]
    · intro hcontra
      rw [abs_eq_zero] at hcontra
      exact absurd hcontra (ne_of_lt hneg)

/-- Witness for C7: the three cases at concrete trade logs. -/
theorem c7_profit_factor_witness :
    profit_factor [] = 0 ∧
    (negativeSum [⟨0, 1, 100, 120, 2⟩] = 0 ∧
      profit_factor [⟨0, 1, 100, 120, 2⟩] =
        positiveSum [⟨0, 1, 100, 120, 2⟩] / 1) ∧
    (negativeSum [⟨0, 1, 100, 90, -1⟩, ⟨2, 3, 100, 120, 2⟩] < 0 ∧
      profit_factor [⟨0, 1, 100, 90, -1⟩, ⟨2, 3, 100, 120, 2⟩] =
        positiveSum [⟨0, 1, 100, 90, -1⟩, ⟨2, 3, 100, 120, 2⟩] /
          |negativeSum [⟨0, 1, 100, 90, -1⟩, ⟨2, 3, 100, 120, 2⟩]| ∧
      |negativeSum [⟨0, 1, 100, 90, -1⟩, ⟨2, 3, 100, 120, 2⟩]| ≠ 0) :=
  ⟨(c7_profit_factor []).1 rfl,
   (c7_profit_factor [⟨0, 1, 100, 120, 2⟩]).2.1 (by decide) (by decide),
   (c7_profit_factor [⟨0, 1, 100, 90, -1⟩, ⟨2, 3, 100, 120, 2⟩]).2.2
     (by decide) ⟨⟨0, 1, 100, 90, -1⟩, by decide, by decide⟩⟩

/-- C8 counterexample: `btC8` has misaligned signal index labels, non-positive
initial cash and negative fee and slippage, yet `run` does not fail: it completes
and produces two equity values and one trade record — the engine performs no
precondition validation at all. -/
theorem c8_counterexample :
    btC8.entries.map Prod.fst ≠ btC8.close.map Prod.fst ∧
    btC8.init_cash ≤ 0 ∧ btC8.fee < 0 ∧ btC8.slippage < 0 ∧
    (match btC8.run with
      | .ok b => some ((b.equity.getD []).length, b.trades.length)
      | .error _ => none) = some (2, 1) := by
  refine ⟨by decide, by norm_num [btC8], by norm_num [btC8], by norm_num [btC8], by decide⟩

/-- C8 amended: the engine validates nothing before the loop.  Whenever each
signal series is at least as long as the close series, `run` succeeds — whatever
the index labels, `init_cash`, `fee` or `slippage` — reading signals positionally
and producing one equity value per close bar. -/
theorem c8_amended_no_validation (bt : Backtester)
    (h1 : bt.close.length ≤ bt.entries.length)
    (h2 : bt.close.length ≤ bt.exits.length) :
    ∃ b' eqc, bt.run = .ok b' ∧ b'.equity = some eqc ∧
      eqc.length = bt.close.length := by
  refine ⟨_, _, run_ok_of_lengths bt h1 h2, rfl, ?_⟩
  rw [equityB_length, mkRows_length bt.close bt.entries bt.exits h1 h2]

/-- Witness for the amended C8 at `btC8` itself. -/
theorem c8_amended_no_validation_witness :
    ∃ b' eqc, btC8.run = .ok b' ∧ b'.equity = some eqc ∧
      eqc.length = btC8.close.length :=
  c8_amended_no_validation btC8 (by decide) (by decide)

end CryptoBot

namespace CryptoBot

theorem totalReturnOf_eq (bt : Backtester)
    (h1 : bt.close.length ≤ bt.entries.length)
    (h2 : bt.close.length ≤ bt.exits.length)
    (r : (ℕ × ℚ) × Bool × Bool)
    (hlast : (mkRows bt.close bt.entries bt.exits).getLast? = some r) :
    totalReturnOf bt = some (barEquity r.1.2
      (runCoreB bt.fee bt.slippage (mkRows bt.close bt.entries bt.exits)
        ⟨bt.init_cash, none, []⟩) / bt.init_cash - 1) := by
  have hrun := run_ok_of_lengths bt h1 h2
  have hlastE := equityB_getLast? bt.fee bt.slippage
    (mkRows bt.close bt.entries bt.exits) ⟨bt.init_cash, none, []⟩ r hlast
  simp only [totalReturnOf, hrun, total_return, hlastE, Option.map_some']

theorem runCoreB_cost_mono (fee1 slip1 fee2 slip2 : ℚ)
    (hc1 : 0 ≤ fee1 + slip1) (hcc : fee1 + slip1 ≤ fee2 + slip2)
    (hc2 : fee2 + slip2 ≤ 1) :
    ∀ (rows : List ((ℕ × ℚ) × Bool × Bool)) (s1 s2 : Core),
      (∀ r ∈ rows, 0 < r.1.2) →
      s2.pos = s1.pos → 0 ≤ s2.cash → s2.cash ≤ s1.cash →
      (∀ ep ed, s1.pos = some (ep, ed) → 0 < ep) →
      (runCoreB fee2 slip2 rows s2).pos = (runCoreB fee1 slip1 rows s1).pos ∧
      0 ≤ (runCoreB fee2 slip2 rows s2).cash ∧
      (runCoreB fee2 slip2 rows s2).cash ≤ (runCoreB fee1 slip1 rows s1).cash ∧
      (∀ ep ed, (runCoreB fee1 slip1 rows s1).pos = some (ep, ed) → 0 < ep)
  | [], s1, s2, _, hpos, hnn, hle, hep => ⟨hpos, hnn, hle, hep⟩
  | ((d, p), en, ex) :: rest, s1, s2, hpr, hpos, hnn, hle, hep => by
    have hp : 0 < p := hpr ((d, p), en, ex) (by simp)
    have hrest : ∀ r ∈ rest, 0 < r.1.2 := fun r hr => hpr r (by simp [hr])
    have hnn1 : 0 ≤ s1.cash := le_trans hnn hle
    simp only [runCoreB]
    rcases h1p : s1.pos with _ | ⟨ep0, ed0⟩
    · -- FLAT in both runs
      have h2p : s2.pos = none := by rw [hpos, h1p]
      cases en
      · have e1 : stepCore fee1 slip1 d p false ex s1 = s1 := by simp [stepCore, h1p]
        have e2 : stepCore fee2 slip2 d p false ex s2 = s2 := by simp [stepCore, h2p]
        rw [e1, e2]
        exact runCoreB_cost_mono fee1 slip1 fee2 slip2 hc1 hcc hc2 rest s1 s2
          hrest hpos hnn hle hep
      · have e1 : stepCore fee1 slip1 d p true ex s1 = { s1 with pos := some (p, d) } := by
          simp [stepCore, h1p]
        have e2 : stepCore fee2 slip2 d p true ex s2 = { s2 with pos := some (p, d) } := by
          simp [stepCore, h2p]
        rw [e1, e2]
        apply runCoreB_cost_mono fee1 slip1 fee2 slip2 hc1 hcc hc2 rest _ _ hrest
        · simp
        · simpa using hnn
        · simpa using hle
        · intro ep1 ed1 hh
          simp only [Option.some.injEq, Prod.mk.injEq] at hh
          rw [← hh.1]
          exact hp
    · -- LONG in both runs
      have h2p : s2.pos = some (ep0, ed0) := by rw [hpos, h1p]
      have hep0 : 0 < ep0 := hep ep0 ed0 h1p
      cases ex
      · have e1 : stepCore fee1 slip1 d p en false s1 = s1 := by simp [stepCore, h1p]
        have e2 : stepCore fee2 slip2 d p en false s2 = s2 := by simp [stepCore, h2p]
        rw [e1, e2]
        exact runCoreB_cost_mono fee1 slip1 fee2 slip2 hc1 hcc hc2 rest s1 s2
          hrest hpos hnn hle hep
      · -- exit closes the position in both runs
        have key : ∀ c cash : ℚ,
            cash * (1 + ((1 + (p - ep0) / ep0) * (1 - c) - 1)) =
              cash * ((p / ep0) * (1 - c)) := by
          intro c cash
          have h0 : ep0 ≠ 0 := ne_of_gt hep0
          field_simp
        have hq : 0 ≤ p / ep0 := le_of_lt (div_pos hp hep0)
        have c1cash : (stepCore fee1 slip1 d p en true s1).cash =
            s1.cash * ((p / ep0) * (1 - (fee1 + slip1))) := by
          simp only [stepCore, h1p, if_true]
          exact key (fee1 + slip1) s1.cash
        have c2cash : (stepCore fee2 slip2 d p en true s2).cash =
            s2.cash * ((p / ep0) * (1 - (fee2 + slip2))) := by
          simp only [stepCore, h2p, if_true]
          exact key (fee2 + slip2) s2.cash
        have c1pos : (stepCore fee1 slip1 d p en true s1).pos = none := by
          simp [stepCore, h1p]
        have c2pos : (stepCore fee2 slip2 d p en true s2).pos = none := by
          simp [stepCore, h2p]
        apply runCoreB_cost_mono fee1 slip1 fee2 slip2 hc1 hcc hc2 rest _ _ hrest
        · rw [c1pos, c2pos]
        · rw [c2cash]
          exact mul_nonneg hnn (mul_nonneg hq (by linarith))
        · rw [c1cash, c2cash]
          apply mul_le_mul hle
            (mul_le_mul_of_nonneg_left (by linarith) hq)
            (mul_nonneg hq (by linarith)) hnn1
        · intro ep1 ed1 hh
          rw [c1pos] at hh
          exact absurd hh (by simp)

/-- C5 counterexample: two backtests over identical flat price paths and signals,
both with non-negative `fee` and `slippage`; raising only `fee` (`3/5` to `7/10`,
with `slippage = 3/5`) RAISES the total return from `-24/25` to `-91/100`,
because the combined cost exceeds `1` and its sign flip cancels over two trades.
So total return is not non-increasing in `fee` as the claim states. -/
theorem c5_counterexample :
    btC5lo.close = btC5hi.close ∧ btC5lo.entries = btC5hi.entries ∧
    btC5lo.exits = btC5hi.exits ∧ btC5lo.init_cash = btC5hi.init_cash ∧
    btC5lo.slippage = btC5hi.slippage ∧ 0 ≤ btC5lo.fee ∧ 0 ≤ btC5lo.slippage ∧
    btC5lo.fee < btC5hi.fee ∧
    totalReturnOf btC5lo = some (-(24/25)) ∧
    totalReturnOf btC5hi = some (-(91/100)) ∧
    ¬((-(91/100) : ℚ) ≤ -(24/25)) := by
  refine ⟨rfl, rfl, rfl, rfl, rfl, by norm_num [btC5lo], by norm_num [btC5lo],
    by norm_num [btC5lo, btC5hi], ?_, ?_, by norm_num⟩
  · simp only [totalReturnOf, run_ok_of_lengths btC5lo (by decide) (by decide)]
    norm_num [btC5lo, total_return, equityB, mkRows, runCoreB, stepCore, barEquity]
  · simp only [totalReturnOf, run_ok_of_lengths btC5hi (by decide) (by decide)]
    norm_num [btC5hi, total_return, equityB, mkRows, runCoreB, stepCore, barEquity]

/-- C5 amended: over a positive price series, with `0 ≤ fee`, `0 ≤ slippage` and
the combined cost `fee + slippage` staying at most `1`, the reported total
return is non-increasing when `fee` and `slippage` are (weakly) raised, holding
everything else fixed. -/
theorem c5_amended_fee_monotone (bt : Backtester) (fee2 slip2 : ℚ)
    (h1 : bt.close.length ≤ bt.entries.length)
    (h2 : bt.close.length ≤ bt.exits.length)
    (hprices : ∀ r ∈ bt.close, 0 < r.2)
    (hcash : 0 < bt.init_cash)
    (hfee : 0 ≤ bt.fee) (hslip : 0 ≤ bt.slippage)
    (hfle : bt.fee ≤ fee2) (hsle : bt.slippage ≤ slip2)
    (hcap : fee2 + slip2 ≤ 1)
    (t1 t2 : ℚ) (ht1 : totalReturnOf bt = some t1)
    (ht2 : totalReturnOf { bt with fee := fee2, slippage := slip2 } = some t2) :
    t2 ≤ t1 := by
  rcases hlast : (mkRows bt.close bt.entries bt.exits).getLast? with _ | r
  · have hnil : mkRows bt.close bt.entries bt.exits = [] :=
      List.getLast?_eq_none_iff.mp hlast
    simp [totalReturnOf, run_ok_of_lengths bt h1 h2, hnil, equityB, total_return] at ht1
  · have hrmem : r ∈ mkRows bt.close bt.entries bt.exits :=
      List.mem_of_mem_getLast? (by rw [hlast]; rfl)
    have hrp : 0 < r.1.2 := hprices r.1 (mkRows_fst_mem hrmem)
    have e1 := totalReturnOf_eq bt h1 h2 r hlast
    have e2' := totalReturnOf_eq { bt with fee := fee2, slippage := slip2 } h1 h2 r hlast
    have e2 : totalReturnOf { bt with fee := fee2, slippage := slip2 } =
        some (barEquity r.1.2
          (runCoreB fee2 slip2 (mkRows bt.close bt.entries bt.exits)
            ⟨bt.init_cash, none, []⟩) / bt.init_cash - 1) := e2'
    rw [e1] at ht1
    rw [e2] at ht2
    injection ht1 with ht1'
    injection ht2 with ht2'
    have hm := runCoreB_cost_mono bt.fee bt.slippage fee2 slip2
      (add_nonneg hfee hslip) (add_le_add hfle hsle) hcap
      (mkRows bt.close bt.entries bt.exits)
      ⟨bt.init_cash, none, []⟩ ⟨bt.init_cash, none, []⟩
      (fun rr hrr => hprices rr.1 (mkRows_fst_mem hrr))
      rfl (le_of_lt hcash) (le_refl _)
      (by intro ep ed hh; exact absurd hh (by simp))
    obtain ⟨hmpos, hmnn, hmle, hmep⟩ := hm
    have hbe : barEquity r.1.2
        (runCoreB fee2 slip2 (mkRows bt.close bt.entries bt.exits)
          ⟨bt.init_cash, none, []⟩) ≤
        barEquity r.1.2
        (runCoreB bt.fee bt.slippage (mkRows bt.close bt.entries bt.exits)
          ⟨bt.init_cash, none, []⟩) := by
      rcases hsp : (runCoreB bt.fee bt.slippage (mkRows bt.close bt.entries bt.exits)
          ⟨bt.init_cash, none, []⟩).pos with _ | ⟨ep, ed⟩
      · have h2sp : (runCoreB fee2 slip2 (mkRows bt.close bt.entries bt.exits)
            ⟨bt.init_cash, none, []⟩).pos = none := by rw [hmpos, hsp]
        simp only [barEquity, hsp, h2sp]
        exact hmle
      · have h2sp : (runCoreB fee2 slip2 (mkRows bt.close bt.entries bt.exits)
            ⟨bt.init_cash, none, []⟩).pos = some (ep, ed) := by rw [hmpos, hsp]
        have hep : 0 < ep := hmep ep ed hsp
        simp only [barEquity, hsp, h2sp]
        exact mul_le_mul_of_nonneg_right hmle (le_of_lt (div_pos hrp hep))
    rw [← ht1', ← ht2']
    have hdiv := (div_le_div_iff_of_pos_right hcash).mpr hbe
    linarith

/-- Witness for the amended C5 on `btC5W`: fee `1/1000` vs fee `2/1000` and
slippage `0` vs `1/1000`; the total return drops from `989/10000` to `967/10000`. -/
theorem c5_amended_fee_monotone_witness :
    totalReturnOf btC5W = some (989/10000) ∧
    totalReturnOf { btC5W with fee := 2/1000, slippage := 1/1000 } =
      some (967/10000) ∧
    (967/10000 : ℚ) ≤ 989/10000 := by
  have ha : totalReturnOf btC5W = some (989/10000) := by
    simp only [totalReturnOf, run_ok_of_lengths btC5W (by decide) (by decide)]
    norm_num [btC5W, total_return, equityB, mkRows, runCoreB, stepCore, barEquity]
  have hb : totalReturnOf { btC5W with fee := 2/1000, slippage := 1/1000 } =
      some (967/10000) := by
    simp only [totalReturnOf,
      run_ok_of_lengths { btC5W with fee := 2/1000, slippage := 1/1000 }
        (by decide) (by decide)]
    norm_num [btC5W, total_return, equityB, mkRows, runCoreB, stepCore, barEquity]
  exact ⟨ha, hb,
    c5_amended_fee_monotone btC5W (2/1000) (1/1000) (by decide) (by decide)
      (by norm_num [btC5W]) (by norm_num [btC5W]) (by norm_num [btC5W])
      (by norm_num [btC5W]) (by norm_num [btC5W]) (by norm_num [btC5W])
      (by norm_num) _ _ ha hb⟩

end CryptoBot

namespace CryptoBot

/-- C6 counterexample: on the equity curve `[1, 1, 1, 2]` the per-bar returns
are `[0, 0, 0, 1]` with mean `1/4` and standard deviation `1/2 > 0`, yet
`Backtester.stats` does not report `mean/std * sqrt(bars_per_year)`: it reports
`mean/(std + 1e-9) * sqrt(252*24*12)`, which is strictly smaller.  The claimed
formula therefore does not hold of this metrics-calculator path. -/
theorem c6_counterexample :
    sharpe_stats [1, 1, 1, 2] ≠
      sharpeSpecFormula (252 * 24 * 12) (pctChange [1, 1, 1, 2]) := by
  have hpc : pctChange [1, 1, 1, 2] = [0, 0, 0, 1] := by
    norm_num [pctChange]
  have hmean : meanQ [0, 0, 0, 1] = 1/4 := by norm_num [meanQ]
  have hvar : varSample [0, 0, 0, 1] = 1/4 := by norm_num [varSample, meanQ]
  have hsqrt : Real.sqrt ((1 : ℝ)/4) = 1/2 := by
    rw [show ((1 : ℝ)/4) = (1/2)^2 by norm_num,
      Real.sqrt_sq (by norm_num : (0 : ℝ) ≤ 1/2)]
  have hK : (0 : ℝ) < Real.sqrt (252 * 24 * 12) :=
    Real.sqrt_pos.mpr (by norm_num)
  simp only [sharpe_stats, sharpeSpecFormula, hpc, hmean, hvar]
  push_cast
  rw [hsqrt, show ((252 : ℝ) * 24 * 12) = 72576 by norm_num]
  apply ne_of_lt
  apply mul_lt_mul_of_pos_right _ (Real.sqrt_pos.mpr (by norm_num : (0 : ℝ) < 72576))
  apply div_lt_div_of_pos_left (by norm_num) (by norm_num) (by norm_num)

/-- C6 amended: the Sharpe ratio of `calculate_metrics` (metrics.py) is `0`
when the standard deviation of the non-missing strategy returns is undefined
(fewer than two values) or zero, and `mean/std * sqrt(365*24*60)` otherwise;
`Backtester.stats` instead always computes `mean/(std + 1e-9) * sqrt(252*24*12)`
with no zero-variance special case (see the counterexample). -/
theorem c6_amended_sharpe (sr : List (Option ℚ)) :
    ((sr.filterMap id).length ≤ 1 → sharpe_metrics sr = 0) ∧
    (1 < (sr.filterMap id).length →
      Real.sqrt (varSample (sr.filterMap id)) = 0 → sharpe_metrics sr = 0) ∧
    (1 < (sr.filterMap id).length →
      0 < Real.sqrt (varSample (sr.filterMap id)) →
      sharpe_metrics sr = (meanQ (sr.filterMap id) : ℝ) /
        Real.sqrt (varSample (sr.filterMap id)) * Real.sqrt (365 * 24 * 60)) := by
  refine ⟨?_, ?_, ?_⟩
  · intro h
    simp only [sharpe_metrics, if_pos h]
  · intro h hs
    have hv : ¬(0 < varSample (sr.filterMap id)) := by
      intro hcontra
      have h0 : (0 : ℝ) < Real.sqrt (varSample (sr.filterMap id)) :=
        Real.sqrt_pos.mpr (by exact_mod_cast hcontra)
      rw [hs] at h0
      exact lt_irrefl 0 h0
    simp only [sharpe_metrics, if_neg (Nat.not_le.mpr h), if_neg hv]
  · intro h hs
    have hv : 0 < varSample (sr.filterMap id) := by
      have := Real.sqrt_pos.mp hs
      exact_mod_cast this
    simp only [sharpe_metrics, if_neg (Nat.not_le.mpr h), if_pos hv]

/-- Witness for the amended C6: zero variance (`[5, 5]`) and undefined variance
(a single return) both yield Sharpe `0`. -/
theorem c6_amended_sharpe_witness :
    sharpe_metrics [some 5, some 5] = 0 ∧ sharpe_metrics [some 3] = 0 := by
  constructor
  · apply (c6_amended_sharpe [some 5, some 5]).2.1 (by decide)
    have hfm : List.filterMap id [some (5 : ℚ), some 5] = [5, 5] := rfl
    rw [hfm, show varSample [(5 : ℚ), 5] = 0 from by norm_num [varSample, meanQ]]
    simp
  · exact (c6_amended_sharpe [some 3]).1 (by decide)

end CryptoBot

namespace CryptoBot

theorem windowLabel_spec (w t : ℕ) (hw : 0 < w) :
    t ≤ windowLabel w t ∧ windowLabel w t < t + w ∧ w ∣ windowLabel w t := by
  unfold windowLabel
  have h := Nat.div_add_mod (t + w - 1) w
  have hm : (t + w - 1) % w < w := Nat.mod_lt _ hw
  refine ⟨?_, ?_, dvd_mul_right w _⟩
  · generalize hA : w * ((t + w - 1) / w) = A at h ⊢
    omega
  · generalize hA : w * ((t + w - 1) / w) = A at h ⊢
    omega

theorem windowLabel_eq_iff (w t T : ℕ) (hw : 0 < w) :
    windowLabel w t = T ↔ (w ∣ T ∧ t ≤ T ∧ T < t + w) := by
  obtain ⟨hle, hlt, hdvd⟩ := windowLabel_spec w t hw
  constructor
  · rintro rfl
    exact ⟨hdvd, hle, hlt⟩
  · rintro ⟨⟨k, rfl⟩, hle2, hlt2⟩
    obtain ⟨q, hq⟩ := hdvd
    rw [hq] at hle hlt ⊢
    have hqk : q = k := by
      rcases Nat.lt_trichotomy q k with hc | hc | hc
      · exfalso
        have h2 : w * q + w ≤ w * k := by
          have h3 : w * (q + 1) ≤ w * k :=
            Nat.mul_le_mul_left w (Nat.succ_le_of_lt hc)
          rw [Nat.mul_succ] at h3
          exact h3
        have h4 : t + w ≤ w * k := le_trans (Nat.add_le_add_right hle w) h2
        exact absurd hlt2 (Nat.not_lt.mpr h4)
      · exact hc
      · exfalso
        have h2 : w * k + w ≤ w * q := by
          have h3 : w * (k + 1) ≤ w * q :=
            Nat.mul_le_mul_left w (Nat.succ_le_of_lt hc)
          rw [Nat.mul_succ] at h3
          exact h3
        have h4 : t + w ≤ w * q := le_trans (Nat.add_le_add_right hle2 w) h2
        exact absurd hlt (Nat.not_lt.mpr h4)
    rw [hqk]

theorem le_foldMax_init : ∀ (l : List ℚ) (a : ℚ), a ≤ foldMax a l
  | [], a => le_refl a
  | x :: l, a => le_trans (le_max_left a x) (le_foldMax_init l (max a x))

theorem le_foldMax_mem : ∀ (l : List ℚ) (a x : ℚ), x ∈ l → x ≤ foldMax a l
  | [], _, _, h => absurd h (by simp)
  | y :: l, a, x, h => by
    rcases List.mem_cons.mp h with h | h
    · subst h
      exact le_trans (le_max_right a x) (le_foldMax_init l (max a x))
    · exact le_foldMax_mem l (max a y) x h

theorem foldMax_mem : ∀ (l : List ℚ) (a : ℚ), foldMax a l = a ∨ foldMax a l ∈ l
  | [], a => Or.inl rfl
  | y :: l, a => by
    rcases foldMax_mem l (max a y) with h | h
    · rcases max_choice a y with hm | hm
      · left
        show foldMax (max a y) l = a
        rw [h, hm]
      · right
        show foldMax (max a y) l ∈ y :: l
        rw [h, hm]
        simp
    · right
      exact List.mem_cons_of_mem y h

theorem foldMin_le_init : ∀ (l : List ℚ) (a : ℚ), foldMin a l ≤ a
  | [], a => le_refl a
  | x :: l, a => le_trans (foldMin_le_init l (min a x)) (min_le_left a x)

theorem foldMin_le_mem : ∀ (l : List ℚ) (a x : ℚ), x ∈ l → foldMin a l ≤ x
  | [], _, _, h => absurd h (by simp)
  | y :: l, a, x, h => by
    rcases List.mem_cons.mp h with h | h
    · subst h
      exact le_trans (foldMin_le_init l (min a x)) (min_le_right a x)
    · exact foldMin_le_mem l (min a y) x h

theorem foldMin_mem : ∀ (l : List ℚ) (a : ℚ), foldMin a l = a ∨ foldMin a l ∈ l
  | [], a => Or.inl rfl
  | y :: l, a => by
    rcases foldMin_mem l (min a y) with h | h
    · rcases min_choice a y with hm | hm
      · left
        show foldMin (min a y) l = a
        rw [h, hm]
      · right
        show foldMin (min a y) l ∈ y :: l
        rw [h, hm]
        simp
    · right
      exact List.mem_cons_of_mem y h

end CryptoBot

namespace CryptoBot

theorem getLast?_cons_getLastD {α : Type} :
    ∀ (l : List α) (b : α), (b :: l).getLast? = some (l.getLastD b)
  | [], b => rfl
  | x :: l, b => by
    rw [List.getLast?_cons_cons, getLast?_cons_getLastD l x, List.getLastD_cons]

theorem filter_label_eq_windowBars (w T : ℕ) (hw : 0 < w) (hdvd : w ∣ T)
    (s : List Bar) :
    s.filter (fun b => decide (windowLabel w b.t = T)) = windowBars w T s := by
  unfold windowBars
  apply List.filter_congr
  intro b _
  have hiff : (windowLabel w b.t = T) ↔ (b.t ≤ T ∧ T < b.t + w) := by
    rw [windowLabel_eq_iff w b.t T hw]
    constructor
    · rintro ⟨_, h1, h2⟩
      exact ⟨h1, h2⟩
    · rintro ⟨h1, h2⟩
      exact ⟨hdvd, h1, h2⟩
  simp [hiff]

theorem aggWindow_t :
    ∀ (T : ℕ) (g : List Bar) (B : Bar), aggWindow T g = some B → B.t = T
  | T, [], B, h => by simp [aggWindow] at h
  | T, b :: rest, B, h => by
    simp only [aggWindow, Option.some.injEq] at h
    rw [← h]

/-- C9: for a timeframe code parsing to a window width `w > 0` (other than the
native `1m` codes), the resampler partitions the sorted source bars into
right-closed, right-labelled windows of width `w`, aggregates each nonempty
window as `open = first`, `high = max`, `low = min`, `close = last`,
`volume = sum`, drops every window with no contributing source bars, and, for
the native codes, returns the sorted bars unchanged. -/
theorem c9_resample_windows (bars : List Bar) (tf : String) (w : ℕ)
    (hid : ¬(tf = "1m" ∨ tf = "1T" ∨ tf = "1min"))
    (hw : tfMinutes tf = some w) (hw0 : 0 < w) :
    (∃ out, resample_ohlcv tf bars = some out ∧ ResampleSpec w bars out) ∧
    (∀ bars2, resample_ohlcv "1m" bars2 = some (sortBars bars2)) := by
  constructor
  · refine ⟨resampleCore w (sortBars bars), ?_, ?_, ?_⟩
    · simp only [resample_ohlcv, if_neg hid, hw]
    · -- each output bar aggregates its nonempty window
      intro B hB
      obtain ⟨T, hTmem, hagg⟩ := List.mem_filterMap.mp hB
      have hTlab : T ∈ (sortBars bars).map (fun b => windowLabel w b.t) :=
        List.mem_dedup.mp hTmem
      obtain ⟨b0, _, hb0⟩ := List.mem_map.mp hTlab
      have hdvd : w ∣ T := hb0 ▸ (windowLabel_spec w b0.t hw0).2.2
      rw [filter_label_eq_windowBars w T hw0 hdvd (sortBars bars)] at hagg
      have hBt : B.t = T := aggWindow_t T _ B hagg
      rcases hg : windowBars w T (sortBars bars) with _ | ⟨b, rest⟩
      · rw [hg] at hagg
        exact absurd hagg (by simp [aggWindow])
      · rw [hg] at hagg
        simp only [aggWindow, Option.some.injEq] at hagg
        rw [hBt, hg]
        subst hagg
        refine ⟨by simp, hdvd, ?_, ?_, ?_, ?_, ?_, ?_, ?_⟩
        · simp
        · rw [getLast?_cons_getLastD rest b]
          simp
        · intro x hx
          rcases List.mem_cons.mp hx with hx | hx
          · subst hx
            exact le_foldMax_init (rest.map Bar.hi) x.hi
          · exact le_foldMax_mem (rest.map Bar.hi) b.hi x.hi
              (List.mem_map_of_mem Bar.hi hx)
        · rcases foldMax_mem (rest.map Bar.hi) b.hi with h | h
          · rw [List.map_cons, h]
            simp
          · rw [List.map_cons]
            exact List.mem_cons_of_mem b.hi h
        · intro x hx
          rcases List.mem_cons.mp hx with hx | hx
          · subst hx
            exact foldMin_le_init (rest.map Bar.lo) x.lo
          · exact foldMin_le_mem (rest.map Bar.lo) b.lo x.lo
              (List.mem_map_of_mem Bar.lo hx)
        · rcases foldMin_mem (rest.map Bar.lo) b.lo with h | h
          · rw [List.map_cons, h]
            simp
          · rw [List.map_cons]
            exact List.mem_cons_of_mem b.lo h
        · simp
    · -- every source bar contributes to some output window
      intro b hb
      have hspec := windowLabel_spec w b.t hw0
      have hbw : b ∈ windowBars w (windowLabel w b.t) (sortBars bars) := by
        unfold windowBars
        rw [List.mem_filter]
        refine ⟨hb, ?_⟩
        simp [hspec.1, hspec.2.1]
      obtain ⟨B, hB⟩ : ∃ B, aggWindow (windowLabel w b.t)
          (windowBars w (windowLabel w b.t) (sortBars bars)) = some B := by
        rcases hg : windowBars w (windowLabel w b.t) (sortBars bars) with _ | ⟨c, rest⟩
        · rw [hg] at hbw
          exact absurd hbw (by simp)
        · exact ⟨_, rfl⟩
      refine ⟨B, ?_, ?_⟩
      · apply List.mem_filterMap.mpr
        refine ⟨windowLabel w b.t, ?_, ?_⟩
        · exact List.mem_dedup.mpr (List.mem_map_of_mem _ hb)
        · rw [filter_label_eq_windowBars w (windowLabel w b.t) hw0
            hspec.2.2 (sortBars bars)]
          exact hB
      · have hBt : B.t = windowLabel w b.t := aggWindow_t _ _ B hB
        rw [hBt]
        exact ⟨hspec.1, hspec.2.1⟩
  · intro bars2
    rfl

/-- Witness for C9: resampling the spec's five one-minute bars with closes
1..5 into `5m` produces the single bar with `open = 1`, `high = 5`, `low = 1`,
`close = 5`, `volume = 50`, and the `1m` path returns the sorted input. -/
theorem c9_resample_windows_witness :
    (∃ out, resample_ohlcv "5m" demoC9 = some out ∧ ResampleSpec 5 demoC9 out) ∧
    (∀ bars2, resample_ohlcv "1m" bars2 = some (sortBars bars2)) :=
  c9_resample_windows demoC9 "5m" 5 (by decide) (by decide) (by decide)

end CryptoBot
